import Mathlib

/-!
# Verification of the block flattening / page-index assignment core

Shallow embedding of the core logic of `src/viewer/src/components/pdf/PDFViewer.tsx`:

* `parseBlock` / `parseChildren` — the recursive page-index assignment
  (source lines 92–145).  The TypeScript code mutates blocks in place; in
  particular, before recursing into a child it executes
  `child.pageIndex = block.pageIndex`, unconditionally overwriting whatever
  the child carried.  We model this destructive pre-assignment by an extra
  `preset : Option Int` argument: `parseChildren` passes `some` of the
  parent's just-assigned page index, while the top level
  (`handleFileUpload`, lines 168–176) calls `parseBlock` with no preset,
  so a top-level block is processed with its original `pageIndex` field.
* The flat array `all` of the source receives a reference to each block at
  visit time, and a block's `pageIndex` is never mutated after it is pushed,
  so by the time the array is consumed it equals the pre-order flattening of
  the fully assigned forest; we model it as `flattenForest` of the result.
* `renderOverlay` / `blockRect` — per-page overlay projection
  (source lines 195–256): the filter on `block_type` and `pageIndex ?? 0`,
  the `polygon.length < 4` guard, and the axis-aligned bounding box scaled
  by the zoom factor.  Only the geometric payload (block id and rectangle)
  is modelled; colors, borders and click handlers are presentation.

Numbers: page numbers and indices are TypeScript numbers used as integers,
modelled by `Int`; polygon coordinates and the scale factor are modelled by
`ℚ` (the algorithm performs only min/max/subtraction/multiplication).
-/

/-- A node of the extracted document structure, mirroring the `Block`
interface of `PDFViewer.tsx` (lines 12–21): `id`, `type`, `block_type`,
`html`, `polygon`, optional `page_number`, optional `pageIndex`, optional
`children` (an absent `children` field is modelled as `[]`). -/
inductive Block : Type where
  | mk (id ty block_type html : String) (polygon : List (ℚ × ℚ))
       (page_number : Option Int) (pageIndex : Option Int)
       (children : List Block) : Block

def Block.id : Block → String
  | .mk i _ _ _ _ _ _ _ => i

def Block.ty : Block → String
  | .mk _ t _ _ _ _ _ _ => t

def Block.block_type : Block → String
  | .mk _ _ bt _ _ _ _ _ => bt

def Block.html : Block → String
  | .mk _ _ _ h _ _ _ _ => h

def Block.polygon : Block → List (ℚ × ℚ)
  | .mk _ _ _ _ poly _ _ _ => poly

def Block.page_number : Block → Option Int
  | .mk _ _ _ _ _ pn _ _ => pn

def Block.pageIndex : Block → Option Int
  | .mk _ _ _ _ _ _ pi _ => pi

def Block.children : Block → List Block
  | .mk _ _ _ _ _ _ _ cs => cs

mutual

/-- Embedding of `parseBlock` (PDFViewer.tsx lines 92–145).  `preset`
models the caller's in-place write `child.pageIndex = block.pageIndex`
performed just before the recursive call: `some v` means the caller
overwrote the field with `v`; `none` means a top-level call, which sees
the block's own `pageIndex` field.  Returns the block with `pageIndex`
assigned throughout its subtree, together with the updated
`nextPageIndex` counter. -/
def parseBlock : Block → Option Int → Int → Block × Int
  | .mk i t bt h poly pn pi cs, preset, next =>
    -- effective field value at entry: the caller's overwrite wins
    let pi0 : Option Int := match preset with
      | some v => some v
      | none => pi
    -- lines 98–120: compute this block's pageIndex and the new counter
    let an : Int × Int :=
      if bt = "Page" then
        match pn with
        | some n => (n - 1, if n - 1 ≥ next then n else next)
        | none => (next, next + 1)
      else
        (pi0.getD 0, next)
    -- lines 126–142: recurse into the children, presetting each child's
    -- pageIndex to this block's and threading the counter
    let r := parseChildren cs an.1 an.2
    (.mk i t bt h poly pn (some an.1) r.1, r.2)

/-- The `for (const child of block.children)` loop of `parseBlock`
(lines 126–142): presets every child's `pageIndex` to the parent's
assigned index `p`, threading `nextPageIndex` left to right. -/
def parseChildren : List Block → Int → Int → List Block × Int
  | [], _, next => ([], next)
  | c :: cs, p, next =>
    let r := parseBlock c (some p) next
    let rs := parseChildren cs p r.2
    (r.1 :: rs.1, rs.2)

end

/-- The top-level loop of `handleFileUpload` (lines 168–176): runs
`parseBlock` over each top-level block with no preset, threading the
counter across the forest. -/
def parseForest : List Block → Int → List Block × Int
  | [], next => ([], next)
  | b :: bs, next =>
    let r := parseBlock b none next
    let rs := parseForest bs r.2
    (r.1 :: rs.1, rs.2)

mutual

/-- Pre-order flattening of a block tree: the block itself, then its
children's subtrees in order.  This is the visit/push order of the `all`
array in `parseBlock` (line 123). -/
def flattenBlock : Block → List Block
  | .mk i t bt h poly pn pi cs => .mk i t bt h poly pn pi cs :: flattenForest cs

def flattenForest : List Block → List Block
  | [] => []
  | b :: bs => flattenBlock b ++ flattenForest bs

end

mutual

/-- Total number of blocks in a tree, counted recursively through all
children. -/
def countBlock : Block → Nat
  | .mk _ _ _ _ _ _ _ cs => 1 + countForest cs

def countForest : List Block → Nat
  | [] => 0
  | b :: bs => countBlock b + countForest bs

end

/-- The filter of `renderOverlay` (lines 212–217):
`block.block_type !== "Page" && (block.pageIndex ?? 0) === pageIndex`. -/
def overlayPred (target : Int) (b : Block) : Bool :=
  (b.block_type != "Page") && (b.pageIndex.getD 0 == target)

/-- An axis-aligned screen-space rectangle. -/
structure Rect : Type where
  x : ℚ
  y : ℚ
  width : ℚ
  height : ℚ
deriving DecidableEq, Repr

/-- `Math.min` over a spread list; the `[]` case is unreachable behind the
`polygon.length < 4` guard of `renderOverlay`. -/
def listMin : List ℚ → ℚ
  | [] => 0
  | q :: qs => qs.foldl min q

/-- `Math.max` over a spread list; the `[]` case is unreachable behind the
`polygon.length < 4` guard of `renderOverlay`. -/
def listMax : List ℚ → ℚ
  | [] => 0
  | q :: qs => qs.foldl max q

/-- The rectangle computation of `renderOverlay` (lines 219–232): `null`
for a missing (empty) or degenerate polygon, otherwise the bounding box
of the polygon with every component scaled by `scale` (`left = x*scale`,
`top = y*scale`, `width = (max-min)*scale`, `height = (max-min)*scale`). -/
def blockRect (scale : ℚ) (b : Block) : Option Rect :=
  if b.polygon.length < 4 then none
  else
    let x := listMin (b.polygon.map Prod.fst)
    let y := listMin (b.polygon.map Prod.snd)
    let width := listMax (b.polygon.map Prod.fst) - x
    let height := listMax (b.polygon.map Prod.snd) - y
    some ⟨x * scale, y * scale, width * scale, height * scale⟩

/-- `renderOverlay` (lines 195–256) for one page: filter the flat
collection to this page's non-page blocks, then emit one keyed rectangle
per block with a usable polygon (blocks mapped to `null` are dropped by
the renderer). -/
def renderOverlay (blocks : List Block) (target : Int) (scale : ℚ) :
    List (String × Rect) :=
  (blocks.filter (overlayPred target)).filterMap fun b =>
    match blockRect scale b with
    | none => none
    | some r => some (b.id, r)

/-- The `pageIndex` values of the blocks of type "Page" of a forest, in
pre-order traversal order (only assigned ones contribute). -/
def pageSeq (bs : List Block) : List Int :=
  (flattenForest bs).filterMap fun b =>
    if b.block_type = "Page" then b.pageIndex else none

/-- The `pageIndex` of a block when it is an auto-numbered page: of type
"Page" with no explicit `page_number`. -/
def autoPageIdx (b : Block) : Option Int :=
  if b.block_type = "Page" && b.page_number == none then b.pageIndex else none

/-- The `pageIndex` values of the auto-numbered "Page" blocks of a forest,
in pre-order traversal order. -/
def autoPageSeq (bs : List Block) : List Int :=
  (flattenForest bs).filterMap autoPageIdx

mutual

/-- `inheritB ctx b`: every non-"Page" block of the tree `b` carries
exactly the `pageIndex` of its nearest ancestor of type "Page", where
`ctx` is the page index of the nearest "Page" ancestor of `b` itself
(`0` when there is none, matching the default of the algorithm). -/
def inheritB (ctx : Int) : Block → Bool
  | .mk _ _ bt _ _ _ pi cs =>
    if bt = "Page" then inheritF (pi.getD 0) cs
    else (pi == some ctx) && inheritF ctx cs

def inheritF (ctx : Int) : List Block → Bool
  | [] => true
  | b :: bs => inheritB ctx b && inheritF ctx bs

end

mutual

/-- Well-formed input per the data model of the spec (§3): every explicit
`page_number` is 1-based (≥ 1) and `pageIndex` is absent until the
algorithm assigns it. -/
def wfBlock : Block → Bool
  | .mk _ _ _ _ _ pn pi cs =>
    (match pn with
      | none => true
      | some n => decide (1 ≤ n)) && (pi == none) && wfForest cs

def wfForest : List Block → Bool
  | [] => true
  | b :: bs => wfBlock b && wfForest bs

end

/-- Every block of the list carries a defined, non-negative `pageIndex`. -/
def allIdxNonneg (bs : List Block) : Bool :=
  bs.all fun b =>
    match b.pageIndex with
    | some k => decide (0 ≤ k)
    | none => false

/-- `r` is the minimal axis-aligned bounding box of `poly`, scaled
uniformly by `scale`: it encloses every scaled point, and each of its four
sides is attained by some point of the polygon. -/
def isScaledBBox (scale : ℚ) (poly : List (ℚ × ℚ)) (r : Rect) : Prop :=
  (∀ q ∈ poly,
    r.x ≤ q.1 * scale ∧ q.1 * scale ≤ r.x + r.width ∧
    r.y ≤ q.2 * scale ∧ q.2 * scale ≤ r.y + r.height) ∧
  (∃ q ∈ poly, q.1 * scale = r.x) ∧
  (∃ q ∈ poly, q.1 * scale = r.x + r.width) ∧
  (∃ q ∈ poly, q.2 * scale = r.y) ∧
  (∃ q ∈ poly, q.2 * scale = r.y + r.height)

/-! ### Concrete inputs used by the scenario claims -/

/-- A childless "Page" block with explicit `page_number` 1. -/
def pageOne : Block := .mk "p1" "Page" "Page" "" [] (some 1) none []

/-- A childless "Page" block with explicit `page_number` 3. -/
def pageThree : Block := .mk "p2" "Page" "Page" "" [] (some 3) none []

/-- A childless "Page" block with explicit `page_number` 2. -/
def pageTwo : Block := .mk "p3" "Page" "Page" "" [] (some 2) none []

/-- Three top-level "Page" blocks with explicit page numbers 1, 3, 2 in
that document order, none with children (spec §8, explicit numbering
scenario). -/
def ex3 : List Block := [pageOne, pageThree, pageTwo]

/-- A "Text" block with the rectangular polygon
`[[0,0],[10,0],[10,5],[0,5]]` (spec §8, projection scenario). -/
def ex7 : Block :=
  .mk "b7" "Text" "Text" "" [(0, 0), (10, 0), (10, 5), (0, 5)] none (some 0) []

/-- A "Text" block with the degenerate 2-point polygon `[[0,0],[1,1]]`
(spec §8, degenerate polygon scenario). -/
def bDeg : Block := .mk "deg" "Text" "Text" "" [(0, 0), (1, 1)] none none []

/-- A forest of one auto-numbered page containing the degenerate block. -/
def ex8 : List Block := [.mk "pg8" "Page" "Page" "" [] none none [bDeg]]

/-- A forest exercising every documented malformed input at once: a page
with no `page_number` whose children have an absent polygon resp. a
degenerate one, plus a top-level non-page block with no children. -/
def exMal : List Block :=
  [.mk "pg9" "Page" "Page" "" [] none none
    [.mk "nopoly" "Text" "Text" "" [] none none [],
     .mk "degpoly" "Text" "Text" "" [(0, 0), (1, 1)] none none []],
   .mk "toptext" "Text" "Text" "" [(0, 0), (1, 0), (1, 1), (0, 1)] none none []]

/-! ### Unfolding lemmas for the mutual recursion -/

theorem parseChildren_nil (p n : Int) : parseChildren [] p n = ([], n) := rfl

theorem parseChildren_cons (c : Block) (cs : List Block) (p n : Int) :
    parseChildren (c :: cs) p n =
      ((parseBlock c (some p) n).1 ::
        (parseChildren cs p (parseBlock c (some p) n).2).1,
       (parseChildren cs p (parseBlock c (some p) n).2).2) := rfl

theorem parseForest_nil (n : Int) : parseForest [] n = ([], n) := rfl

theorem parseForest_cons (b : Block) (bs : List Block) (n : Int) :
    parseForest (b :: bs) n =
      ((parseBlock b none n).1 ::
        (parseForest bs (parseBlock b none n).2).1,
       (parseForest bs (parseBlock b none n).2).2) := rfl

theorem parseBlock_page_auto (i t h : String) (pl : List (ℚ × ℚ))
    (pi : Option Int) (cs : List Block) (p : Option Int) (n : Int) :
    parseBlock (.mk i t "Page" h pl none pi cs) p n =
      (.mk i t "Page" h pl none (some n) (parseChildren cs n (n + 1)).1,
       (parseChildren cs n (n + 1)).2) := by
  simp [parseBlock]

theorem parseBlock_page_exp_ge (i t h : String) (pl : List (ℚ × ℚ))
    (n0 : Int) (pi : Option Int) (cs : List Block) (p : Option Int) (n : Int)
    (hge : n0 - 1 ≥ n) :
    parseBlock (.mk i t "Page" h pl (some n0) pi cs) p n =
      (.mk i t "Page" h pl (some n0) (some (n0 - 1))
        (parseChildren cs (n0 - 1) n0).1,
       (parseChildren cs (n0 - 1) n0).2) := by
  simp [parseBlock, hge]

theorem parseBlock_page_exp_lt (i t h : String) (pl : List (ℚ × ℚ))
    (n0 : Int) (pi : Option Int) (cs : List Block) (p : Option Int) (n : Int)
    (hlt : ¬ n0 - 1 ≥ n) :
    parseBlock (.mk i t "Page" h pl (some n0) pi cs) p n =
      (.mk i t "Page" h pl (some n0) (some (n0 - 1))
        (parseChildren cs (n0 - 1) n).1,
       (parseChildren cs (n0 - 1) n).2) := by
  simp [parseBlock, hlt]

theorem parseBlock_nonpage (i t bt h : String) (pl : List (ℚ × ℚ))
    (pn : Option Int) (pi : Option Int) (cs : List Block) (p : Option Int)
    (n : Int) (hbt : bt ≠ "Page") :
    parseBlock (.mk i t bt h pl pn pi cs) p n =
      (.mk i t bt h pl pn
        (some ((match p with | some v => some v | none => pi).getD 0))
        (parseChildren cs
          ((match p with | some v => some v | none => pi).getD 0) n).1,
       (parseChildren cs
         ((match p with | some v => some v | none => pi).getD 0) n).2) := by
  simp [parseBlock, hbt]

/-! ### The counter never decreases -/

mutual

theorem parseBlock_le (b : Block) (p : Option Int) (n : Int) :
    n ≤ (parseBlock b p n).2 := by
  cases b with
  | mk i t bt h pl pn pi cs =>
    by_cases hbt : bt = "Page"
    · subst hbt
      cases pn with
      | none =>
        rw [parseBlock_page_auto]
        have := parseChildren_le cs n (n + 1)
        omega
      | some n0 =>
        by_cases hge : n0 - 1 ≥ n
        · rw [parseBlock_page_exp_ge i t h pl n0 pi cs p n hge]
          have := parseChildren_le cs (n0 - 1) n0
          omega
        · rw [parseBlock_page_exp_lt i t h pl n0 pi cs p n hge]
          exact parseChildren_le cs (n0 - 1) n
    · rw [parseBlock_nonpage i t bt h pl pn pi cs p n hbt]
      exact parseChildren_le cs _ n

theorem parseChildren_le (cs : List Block) (p : Int) (n : Int) :
    n ≤ (parseChildren cs p n).2 := by
  cases cs with
  | nil => simp [parseChildren_nil]
  | cons c cs =>
    rw [parseChildren_cons]
    have h1 := parseBlock_le c (some p) n
    have h2 := parseChildren_le cs p (parseBlock c (some p) n).2
    omega

end

theorem parseForest_le (bs : List Block) (n : Int) :
    n ≤ (parseForest bs n).2 := by
  induction bs generalizing n with
  | nil => simp [parseForest_nil]
  | cons b bs ih =>
    rw [parseForest_cons]
    have h1 := parseBlock_le b none n
    have h2 := ih (parseBlock b none n).2
    omega

/-! ### The assignment preserves the shape of the forest -/

mutual

theorem parseBlock_count (b : Block) (p : Option Int) (n : Int) :
    countBlock (parseBlock b p n).1 = countBlock b := by
  cases b with
  | mk i t bt h pl pn pi cs =>
    by_cases hbt : bt = "Page"
    · subst hbt
      cases pn with
      | none =>
        rw [parseBlock_page_auto]
        simp only [countBlock, parseChildren_count]
      | some n0 =>
        by_cases hge : n0 - 1 ≥ n
        · rw [parseBlock_page_exp_ge i t h pl n0 pi cs p n hge]
          simp only [countBlock, parseChildren_count]
        · rw [parseBlock_page_exp_lt i t h pl n0 pi cs p n hge]
          simp only [countBlock, parseChildren_count]
    · rw [parseBlock_nonpage i t bt h pl pn pi cs p n hbt]
      simp only [countBlock, parseChildren_count]

theorem parseChildren_count (cs : List Block) (p : Int) (n : Int) :
    countForest (parseChildren cs p n).1 = countForest cs := by
  cases cs with
  | nil => simp [parseChildren_nil, countForest]
  | cons c cs =>
    rw [parseChildren_cons]
    simp only [countForest, parseBlock_count, parseChildren_count]

end

theorem parseForest_count (bs : List Block) (n : Int) :
    countForest (parseForest bs n).1 = countForest bs := by
  induction bs generalizing n with
  | nil => simp [parseForest_nil, countForest]
  | cons b bs ih =>
    rw [parseForest_cons]
    simp only [countForest, parseBlock_count, ih]

mutual

theorem flattenBlock_length (b : Block) :
    (flattenBlock b).length = countBlock b := by
  cases b with
  | mk i t bt h pl pn pi cs =>
    simp only [flattenBlock, countBlock, List.length_cons,
      flattenForest_length]
    omega

theorem flattenForest_length (bs : List Block) :
    (flattenForest bs).length = countForest bs := by
  cases bs with
  | nil => simp [flattenForest, countForest]
  | cons b bs =>
    simp only [flattenForest, countForest, List.length_append,
      flattenBlock_length, flattenForest_length]

end

/-! ### Idempotence of the assignment -/

mutual

theorem parseBlock_idem (b : Block) (p : Option Int) (n : Int) :
    parseBlock (parseBlock b p n).1 p n = parseBlock b p n := by
  cases b with
  | mk i t bt h pl pn pi cs =>
    by_cases hbt : bt = "Page"
    · subst hbt
      cases pn with
      | none =>
        rw [parseBlock_page_auto, parseBlock_page_auto, parseChildren_idem]
      | some n0 =>
        by_cases hge : n0 - 1 ≥ n
        · rw [parseBlock_page_exp_ge i t h pl n0 pi cs p n hge,
            parseBlock_page_exp_ge i t h pl n0 (some (n0 - 1)) _ p n hge,
            parseChildren_idem]
        · rw [parseBlock_page_exp_lt i t h pl n0 pi cs p n hge,
            parseBlock_page_exp_lt i t h pl n0 (some (n0 - 1)) _ p n hge,
            parseChildren_idem]
    · rw [parseBlock_nonpage i t bt h pl pn pi cs p n hbt,
        parseBlock_nonpage i t bt h pl pn _ _ p n hbt]
      cases p with
      | none => simp only [Option.getD_some, parseChildren_idem]
      | some v => simp only [Option.getD_some, parseChildren_idem]

theorem parseChildren_idem (cs : List Block) (p : Int) (n : Int) :
    parseChildren (parseChildren cs p n).1 p n = parseChildren cs p n := by
  cases cs with
  | nil => simp [parseChildren_nil]
  | cons c cs =>
    rw [parseChildren_cons, parseChildren_cons, parseBlock_idem]
    rw [parseChildren_idem]

end

theorem parseForest_idem (bs : List Block) (n : Int) :
    parseForest (parseForest bs n).1 n = parseForest bs n := by
  induction bs generalizing n with
  | nil => simp [parseForest_nil]
  | cons b bs ih =>
    rw [parseForest_cons, parseForest_cons, parseBlock_idem, ih]

/-! ### Inheritance of the nearest page ancestor's index -/

mutual

theorem parseBlock_inherit (b : Block) (ctx n : Int) :
    inheritB ctx (parseBlock b (some ctx) n).1 = true := by
  cases b with
  | mk i t bt h pl pn pi cs =>
    by_cases hbt : bt = "Page"
    · subst hbt
      cases pn with
      | none =>
        rw [parseBlock_page_auto]
        simp only [inheritB, if_pos rfl, Option.getD_some]
        exact parseChildren_inherit cs n (n + 1)
      | some n0 =>
        by_cases hge : n0 - 1 ≥ n
        · rw [parseBlock_page_exp_ge i t h pl n0 pi cs (some ctx) n hge]
          simp only [inheritB, if_pos rfl, Option.getD_some]
          exact parseChildren_inherit cs (n0 - 1) n0
        · rw [parseBlock_page_exp_lt i t h pl n0 pi cs (some ctx) n hge]
          simp only [inheritB, if_pos rfl, Option.getD_some]
          exact parseChildren_inherit cs (n0 - 1) n
    · rw [parseBlock_nonpage i t bt h pl pn pi cs (some ctx) n hbt]
      simp only [inheritB, if_neg hbt, Option.getD_some]
      rw [parseChildren_inherit cs ctx n]
      simp

theorem parseChildren_inherit (cs : List Block) (p n : Int) :
    inheritF p (parseChildren cs p n).1 = true := by
  cases cs with
  | nil => simp [parseChildren_nil, inheritF]
  | cons c cs =>
    rw [parseChildren_cons]
    simp only [inheritF, Bool.and_eq_true]
    exact ⟨parseBlock_inherit c p n,
      parseChildren_inherit cs p (parseBlock c (some p) n).2⟩

end

theorem parseBlock_inherit_root (b : Block) (n : Int)
    (hb : b.pageIndex = none) :
    inheritB 0 (parseBlock b none n).1 = true := by
  cases b with
  | mk i t bt h pl pn pi cs =>
    simp only [Block.pageIndex] at hb
    subst hb
    by_cases hbt : bt = "Page"
    · subst hbt
      cases pn with
      | none =>
        rw [parseBlock_page_auto]
        simp only [inheritB, if_pos rfl, Option.getD_some]
        exact parseChildren_inherit cs n (n + 1)
      | some n0 =>
        by_cases hge : n0 - 1 ≥ n
        · rw [parseBlock_page_exp_ge i t h pl n0 none cs none n hge]
          simp only [inheritB, if_pos rfl, Option.getD_some]
          exact parseChildren_inherit cs (n0 - 1) n0
        · rw [parseBlock_page_exp_lt i t h pl n0 none cs none n hge]
          simp only [inheritB, if_pos rfl, Option.getD_some]
          exact parseChildren_inherit cs (n0 - 1) n
    · rw [parseBlock_nonpage i t bt h pl pn none cs none n hbt]
      simp only [inheritB, if_neg hbt, Option.getD_none]
      rw [parseChildren_inherit cs 0 n]
      simp

theorem parseForest_inherit (bs : List Block) (n : Int)
    (hf : ∀ b ∈ bs, b.pageIndex = none) :
    inheritF 0 (parseForest bs n).1 = true := by
  induction bs generalizing n with
  | nil => simp [parseForest_nil, inheritF]
  | cons b bs ih =>
    rw [parseForest_cons]
    simp only [inheritF, Bool.and_eq_true]
    exact ⟨parseBlock_inherit_root b n (hf b (by simp)),
      ih (parseBlock b none n).2 fun c hc => hf c (by simp [hc])⟩

/-! ### Assigned indices are defined and non-negative on well-formed input -/

theorem allIdxNonneg_append (l1 l2 : List Block) :
    allIdxNonneg (l1 ++ l2) = (allIdxNonneg l1 && allIdxNonneg l2) := by
  simp [allIdxNonneg, List.all_append]

mutual

theorem parseBlock_nonneg (b : Block) (p : Option Int) (n : Int)
    (hb : wfBlock b = true) (hn : 0 ≤ n) (hp : ∀ v, p = some v → 0 ≤ v) :
    allIdxNonneg (flattenBlock (parseBlock b p n).1) = true ∧
    0 ≤ (parseBlock b p n).2 := by
  cases b with
  | mk i t bt h pl pn pi cs =>
    have hcs : wfForest cs = true := by
      simp only [wfBlock, Bool.and_eq_true] at hb
      exact hb.2
    by_cases hbt : bt = "Page"
    · subst hbt
      cases pn with
      | none =>
        rw [parseBlock_page_auto]
        have hch := parseChildren_nonneg cs n (n + 1) hcs (by omega) hn
        simp only [flattenBlock, allIdxNonneg, List.all_cons,
          Block.pageIndex, Bool.and_eq_true]
        refine ⟨⟨by simpa using hn, ?_⟩, hch.2⟩
        simpa [allIdxNonneg] using hch.1
      | some n0 =>
        have h1 : (1 : Int) ≤ n0 := by
          simp only [wfBlock, Bool.and_eq_true, decide_eq_true_eq] at hb
          exact hb.1.1
        by_cases hge : n0 - 1 ≥ n
        · rw [parseBlock_page_exp_ge i t h pl n0 pi cs p n hge]
          have hch := parseChildren_nonneg cs (n0 - 1) n0 hcs (by omega)
            (by omega)
          simp only [flattenBlock, allIdxNonneg, List.all_cons,
            Block.pageIndex, Bool.and_eq_true]
          refine ⟨⟨by simp; omega, ?_⟩, hch.2⟩
          simpa [allIdxNonneg] using hch.1
        · rw [parseBlock_page_exp_lt i t h pl n0 pi cs p n hge]
          have hch := parseChildren_nonneg cs (n0 - 1) n hcs hn (by omega)
          simp only [flattenBlock, allIdxNonneg, List.all_cons,
            Block.pageIndex, Bool.and_eq_true]
          refine ⟨⟨by simp; omega, ?_⟩, hch.2⟩
          simpa [allIdxNonneg] using hch.1
    · rw [parseBlock_nonpage i t bt h pl pn pi cs p n hbt]
      have hpi : pi = none := by
        simp only [wfBlock, Bool.and_eq_true, beq_iff_eq] at hb
        exact hb.1.2
      subst hpi
      have hidx : 0 ≤ (match p with
          | some v => some v
          | none => (none : Option Int)).getD 0 := by
        cases p with
        | none => simp
        | some v => simpa using hp v rfl
      have hch := parseChildren_nonneg cs _ n hcs hn hidx
      simp only [flattenBlock, allIdxNonneg, List.all_cons,
        Block.pageIndex, Bool.and_eq_true]
      refine ⟨⟨?_, ?_⟩, hch.2⟩
      · simpa using hidx
      · simpa [allIdxNonneg] using hch.1

theorem parseChildren_nonneg (cs : List Block) (p : Int) (n : Int)
    (hcs : wfForest cs = true) (hn : 0 ≤ n) (hp : 0 ≤ p) :
    allIdxNonneg (flattenForest (parseChildren cs p n).1) = true ∧
    0 ≤ (parseChildren cs p n).2 := by
  cases cs with
  | nil => simp [parseChildren_nil, flattenForest, allIdxNonneg, hn]
  | cons c cs =>
    simp only [wfForest, Bool.and_eq_true] at hcs
    rw [parseChildren_cons]
    have hc := parseBlock_nonneg c (some p) n hcs.1 hn
      (fun v hv => by cases hv; exact hp)
    have hrest := parseChildren_nonneg cs p (parseBlock c (some p) n).2
      hcs.2 hc.2 hp
    simp only [flattenForest, allIdxNonneg_append, Bool.and_eq_true]
    exact ⟨⟨hc.1, hrest.1⟩, hrest.2⟩

end

theorem parseForest_nonneg (bs : List Block) (n : Int)
    (hf : wfForest bs = true) (hn : 0 ≤ n) :
    allIdxNonneg (flattenForest (parseForest bs n).1) = true ∧
    0 ≤ (parseForest bs n).2 := by
  induction bs generalizing n with
  | nil => simp [parseForest_nil, flattenForest, allIdxNonneg, hn]
  | cons b bs ih =>
    simp only [wfForest, Bool.and_eq_true] at hf
    rw [parseForest_cons]
    have hb := parseBlock_nonneg b none n hf.1 hn (fun v hv => by cases hv)
    have hrest := ih (parseBlock b none n).2 hf.2 hb.2
    simp only [flattenForest, allIdxNonneg_append, Bool.and_eq_true]
    exact ⟨⟨hb.1, hrest.1⟩, hrest.2⟩

/-! ### Auto-numbered pages are assigned strictly increasing indices -/

theorem memOfGetLast {α : Type} {l : List α} {a : α}
    (h : a ∈ l.getLast?) : a ∈ l := by
  obtain ⟨hne, rfl⟩ := List.mem_getLast?_eq_getLast h
  exact List.getLast_mem hne

mutual

theorem parseBlock_auto (b : Block) (p : Option Int) (n : Int) :
    List.Chain' (· < ·)
      ((flattenBlock (parseBlock b p n).1).filterMap autoPageIdx) ∧
    ∀ x ∈ (flattenBlock (parseBlock b p n).1).filterMap autoPageIdx,
      n ≤ x ∧ x < (parseBlock b p n).2 := by
  cases b with
  | mk i t bt h pl pn pi cs =>
    by_cases hbt : bt = "Page"
    · subst hbt
      cases pn with
      | none =>
        rw [parseBlock_page_auto]
        have hch := parseChildren_auto cs n (n + 1)
        have hle := parseChildren_le cs n (n + 1)
        have hroot : (flattenBlock (Block.mk i t "Page" h pl none (some n)
            (parseChildren cs n (n + 1)).1)).filterMap autoPageIdx =
            n :: (flattenForest
              (parseChildren cs n (n + 1)).1).filterMap autoPageIdx := by
          simp [flattenBlock, autoPageIdx, Block.block_type,
            Block.page_number, Block.pageIndex]
        rw [hroot]
        constructor
        · rw [List.chain'_cons']
          refine ⟨fun y hy => ?_, hch.1⟩
          have := (hch.2 y (List.mem_of_mem_head? hy)).1
          omega
        · intro x hx
          rcases List.mem_cons.1 hx with rfl | hx
          · omega
          · have := hch.2 x hx
            omega
      | some n0 =>
        by_cases hge : n0 - 1 ≥ n
        · rw [parseBlock_page_exp_ge i t h pl n0 pi cs p n hge]
          have hch := parseChildren_auto cs (n0 - 1) n0
          have hroot : (flattenBlock (Block.mk i t "Page" h pl (some n0)
              (some (n0 - 1)) (parseChildren cs (n0 - 1) n0).1)).filterMap
              autoPageIdx =
              (flattenForest
                (parseChildren cs (n0 - 1) n0).1).filterMap autoPageIdx := by
            simp [flattenBlock, autoPageIdx, Block.block_type,
              Block.page_number, Block.pageIndex]
          rw [hroot]
          refine ⟨hch.1, fun x hx => ?_⟩
          have := hch.2 x hx
          omega
        · rw [parseBlock_page_exp_lt i t h pl n0 pi cs p n hge]
          have hch := parseChildren_auto cs (n0 - 1) n
          have hroot : (flattenBlock (Block.mk i t "Page" h pl (some n0)
              (some (n0 - 1)) (parseChildren cs (n0 - 1) n).1)).filterMap
              autoPageIdx =
              (flattenForest
                (parseChildren cs (n0 - 1) n).1).filterMap autoPageIdx := by
            simp [flattenBlock, autoPageIdx, Block.block_type,
              Block.page_number, Block.pageIndex]
          rw [hroot]
          exact ⟨hch.1, fun x hx => hch.2 x hx⟩
    · rw [parseBlock_nonpage i t bt h pl pn pi cs p n hbt]
      have hch := parseChildren_auto cs
        ((match p with | some v => some v | none => pi).getD 0) n
      have hroot : (flattenBlock (Block.mk i t bt h pl pn
          (some ((match p with | some v => some v | none => pi).getD 0))
          (parseChildren cs
            ((match p with | some v => some v | none => pi).getD 0)
            n).1)).filterMap autoPageIdx =
          (flattenForest (parseChildren cs
            ((match p with | some v => some v | none => pi).getD 0)
            n).1).filterMap autoPageIdx := by
        simp [flattenBlock, autoPageIdx, Block.block_type,
          Block.page_number, Block.pageIndex, hbt]
      rw [hroot]
      exact hch

theorem parseChildren_auto (cs : List Block) (p : Int) (n : Int) :
    List.Chain' (· < ·)
      ((flattenForest (parseChildren cs p n).1).filterMap autoPageIdx) ∧
    ∀ x ∈ (flattenForest (parseChildren cs p n).1).filterMap autoPageIdx,
      n ≤ x ∧ x < (parseChildren cs p n).2 := by
  cases cs with
  | nil => simp [parseChildren_nil, flattenForest]
  | cons c cs =>
    rw [parseChildren_cons]
    have hc := parseBlock_auto c (some p) n
    have hrest := parseChildren_auto cs p (parseBlock c (some p) n).2
    simp only [flattenForest, List.filterMap_append]
    constructor
    · rw [List.chain'_append]
      refine ⟨hc.1, hrest.1, fun x hx y hy => ?_⟩
      have hxb := (hc.2 x (memOfGetLast hx)).2
      have hyb := (hrest.2 y (List.mem_of_mem_head? hy)).1
      omega
    · intro x hx
      rcases List.mem_append.1 hx with hx | hx
      · have h1 := hc.2 x hx
        have h2 := parseChildren_le cs p (parseBlock c (some p) n).2
        omega
      · have := hrest.2 x hx
        have h1 := parseBlock_le c (some p) n
        omega

end

theorem parseForest_auto (bs : List Block) (n : Int) :
    List.Chain' (· < ·) (autoPageSeq (parseForest bs n).1) ∧
    ∀ x ∈ autoPageSeq (parseForest bs n).1,
      n ≤ x ∧ x < (parseForest bs n).2 := by
  induction bs generalizing n with
  | nil => simp [parseForest_nil, autoPageSeq, flattenForest]
  | cons b bs ih =>
    rw [parseForest_cons]
    have hb := parseBlock_auto b none n
    have hrest := ih (parseBlock b none n).2
    simp only [autoPageSeq, flattenForest, List.filterMap_append] at *
    constructor
    · rw [List.chain'_append]
      refine ⟨hb.1, hrest.1, fun x hx y hy => ?_⟩
      have hxb := (hb.2 x (memOfGetLast hx)).2
      have hyb := (hrest.2 y (List.mem_of_mem_head? hy)).1
      omega
    · intro x hx
      rcases List.mem_append.1 hx with hx | hx
      · have h1 := hb.2 x hx
        have h2 := parseForest_le bs (parseBlock b none n).2
        omega
      · have := hrest.2 x hx
        have h1 := parseBlock_le b none n
        omega

/-! ### Bounding box facts -/

theorem foldlMin_le_init (qs : List ℚ) (a : ℚ) : qs.foldl min a ≤ a := by
  induction qs generalizing a with
  | nil => simp
  | cons q qs ih =>
    simp only [List.foldl_cons]
    exact le_trans (ih (min a q)) (min_le_left a q)

theorem foldlMin_le_mem (qs : List ℚ) (a x : ℚ) (hx : x ∈ qs) :
    qs.foldl min a ≤ x := by
  induction qs generalizing a with
  | nil => cases hx
  | cons q qs ih =>
    simp only [List.foldl_cons]
    rcases List.mem_cons.1 hx with rfl | hx
    · exact le_trans (foldlMin_le_init qs (min a x)) (min_le_right a x)
    · exact ih (min a q) hx

theorem foldlMin_mem (qs : List ℚ) (a : ℚ) :
    qs.foldl min a = a ∨ qs.foldl min a ∈ qs := by
  induction qs generalizing a with
  | nil => simp
  | cons q qs ih =>
    simp only [List.foldl_cons]
    rcases ih (min a q) with hm | hm
    · rcases min_choice a q with hc | hc
      · left
        rw [hm, hc]
      · right
        rw [hm, hc]
        simp
    · right
      simp [hm]

theorem foldlMax_init_le (qs : List ℚ) (a : ℚ) : a ≤ qs.foldl max a := by
  induction qs generalizing a with
  | nil => simp
  | cons q qs ih =>
    simp only [List.foldl_cons]
    exact le_trans (le_max_left a q) (ih (max a q))

theorem foldlMax_mem_le (qs : List ℚ) (a x : ℚ) (hx : x ∈ qs) :
    x ≤ qs.foldl max a := by
  induction qs generalizing a with
  | nil => cases hx
  | cons q qs ih =>
    simp only [List.foldl_cons]
    rcases List.mem_cons.1 hx with rfl | hx
    · exact le_trans (le_max_right a x) (foldlMax_init_le qs (max a x))
    · exact ih (max a q) hx

theorem foldlMax_mem (qs : List ℚ) (a : ℚ) :
    qs.foldl max a = a ∨ qs.foldl max a ∈ qs := by
  induction qs generalizing a with
  | nil => simp
  | cons q qs ih =>
    simp only [List.foldl_cons]
    rcases ih (max a q) with hm | hm
    · rcases max_choice a q with hc | hc
      · left
        rw [hm, hc]
      · right
        rw [hm, hc]
        simp
    · right
      simp [hm]

theorem listMin_le (l : List ℚ) (x : ℚ) (hx : x ∈ l) : listMin l ≤ x := by
  cases l with
  | nil => cases hx
  | cons q qs =>
    simp only [listMin]
    rcases List.mem_cons.1 hx with rfl | hx
    · exact foldlMin_le_init qs x
    · exact foldlMin_le_mem qs q x hx

theorem le_listMax (l : List ℚ) (x : ℚ) (hx : x ∈ l) : x ≤ listMax l := by
  cases l with
  | nil => cases hx
  | cons q qs =>
    simp only [listMax]
    rcases List.mem_cons.1 hx with rfl | hx
    · exact foldlMax_init_le qs x
    · exact foldlMax_mem_le qs q x hx

theorem listMin_mem (l : List ℚ) (hl : l ≠ []) : listMin l ∈ l := by
  cases l with
  | nil => exact absurd rfl hl
  | cons q qs =>
    simp only [listMin]
    rcases foldlMin_mem qs q with hm | hm
    · rw [hm]
      simp
    · simp [hm]

theorem listMax_mem (l : List ℚ) (hl : l ≠ []) : listMax l ∈ l := by
  cases l with
  | nil => exact absurd rfl hl
  | cons q qs =>
    simp only [listMax]
    rcases foldlMax_mem qs q with hm | hm
    · rw [hm]
      simp
    · simp [hm]

theorem blockRect_eq (b : Block) (scale : ℚ) (hlen : 4 ≤ b.polygon.length) :
    blockRect scale b = some
      ⟨listMin (b.polygon.map Prod.fst) * scale,
       listMin (b.polygon.map Prod.snd) * scale,
       (listMax (b.polygon.map Prod.fst) -
         listMin (b.polygon.map Prod.fst)) * scale,
       (listMax (b.polygon.map Prod.snd) -
         listMin (b.polygon.map Prod.snd)) * scale⟩ := by
  unfold blockRect
  rw [if_neg (by omega)]

theorem blockRect_none (b : Block) (scale : ℚ) (hlen : b.polygon.length < 4) :
    blockRect scale b = none := by
  unfold blockRect
  rw [if_pos hlen]

/-! ### The claims -/

/-- Claim C1: in the flattened output, every block whose `block_type` is
not "Page" carries exactly the `pageIndex` of its nearest ancestor of type
"Page", or `0` when it has no such ancestor (top-level non-page blocks
included).  `inheritF 0` checks this for every node of the assigned
forest, threading the nearest "Page" ancestor's assigned index down the
tree (and `0` at the roots).  The hypothesis states the documented input
shape: `pageIndex` is absent until the algorithm assigns it (here only
needed on the top-level blocks — deeper blocks are overwritten by their
parent unconditionally). -/
theorem claim_C1_inheritance (f : List Block) (n : Int)
    (hf : ∀ b ∈ f, b.pageIndex = none) :
    inheritF 0 (parseForest f n).1 = true :=
  parseForest_inherit f n hf

theorem claim_C1_witness :
    (∀ b ∈ ex8, b.pageIndex = none) ∧
    inheritF 0 (parseForest ex8 0).1 = true := by
  have hf : ∀ b ∈ ex8, b.pageIndex = none := by
    intro b hb
    simp only [ex8, List.mem_singleton] at hb
    subst hb
    rfl
  exact ⟨hf, claim_C1_inheritance ex8 0 hf⟩

/-- Claim C2: three top-level "Page" blocks with explicit `page_number`
values 1, 3, 2 in document order and no children are assigned `pageIndex`
0, 2, 1 respectively, and the running counter ends at 3. -/
theorem claim_C2_explicit_scenario :
    (parseForest ex3 0).1.map Block.pageIndex =
      [some 0, some 2, some 1] ∧
    (parseForest ex3 0).2 = 3 :=
  ⟨rfl, rfl⟩

/-- Claim C3, counterexample: on the spec's own explicit-numbering
scenario (pages numbered 1, 3, 2 in document order — the input of claim
C2) the pre-order sequence of "Page" `pageIndex` values is `[0, 2, 1]`,
which is not non-decreasing.  So the claim as stated is false. -/
theorem claim_C3_counterexample :
    ¬ List.Chain' (· ≤ ·) (pageSeq (parseForest ex3 0).1) := by
  have he : pageSeq (parseForest ex3 0).1 = [0, 2, 1] := rfl
  rw [he]
  simp only [List.chain'_cons, List.chain'_singleton, and_true]
  omega

/-- Claim C3, amended: for any input document, the sequence of `pageIndex`
values assigned to *auto-numbered* blocks of type "Page" (those without an
explicit `page_number`), taken in pre-order traversal order, is
non-decreasing (it is in fact strictly increasing); out-of-order explicit
page numbers can break monotonicity of the full "Page" sequence, as the
counterexample shows. -/
theorem claim_C3_auto_monotone (f : List Block) :
    List.Chain' (· ≤ ·) (autoPageSeq (parseForest f 0).1) :=
  ((parseForest_auto f 0).1).imp fun _ _ hab => le_of_lt hab

/-- Claim C4: the assignment is idempotent — re-running the algorithm
(again from counter 0) on the tree produced by a first run reassigns
every block exactly the pageIndex it already carries, and leaves the
counter identical. -/
theorem claim_C4_idempotent (f : List Block) :
    parseForest (parseForest f 0).1 0 = parseForest f 0 :=
  parseForest_idem f 0

/-- Claim C5: the flat output collection contains exactly one entry per
block of the input forest: its size equals the total number of blocks of
all types, counted recursively through all children. -/
theorem claim_C5_completeness (f : List Block) :
    (flattenForest (parseForest f 0).1).length = countForest f := by
  rw [flattenForest_length, parseForest_count]

/-- Claim C6: on well-formed input (explicit page numbers are 1-based and
`pageIndex` is absent until assigned, per the data model), every block in
the flat output has a defined, non-negative `pageIndex`. -/
theorem claim_C6_nonneg (f : List Block) (hf : wfForest f = true) :
    allIdxNonneg (flattenForest (parseForest f 0).1) = true :=
  (parseForest_nonneg f 0 hf (by omega)).1

theorem claim_C6_witness :
    wfForest exMal = true ∧
    allIdxNonneg (flattenForest (parseForest exMal 0).1) = true :=
  ⟨rfl, claim_C6_nonneg exMal rfl⟩

/-- Claim C7: for every block selected for overlay with a polygon of at
least 4 points, the projected rectangle is the minimal axis-aligned
bounding box of the polygon scaled uniformly by the zoom factor — it
encloses every scaled point and attains each of its four sides — and on
the spec's scenario (polygon `[[0,0],[10,0],[10,5],[0,5]]`, scale 2) the
rectangle is `{x:0, y:0, width:20, height:10}`.  (The page filter does
not alter the rectangle, which depends only on polygon and scale.) -/
theorem claim_C7_projection :
    (∀ (b : Block) (scale : ℚ), 4 ≤ b.polygon.length → 0 ≤ scale →
      ∃ r, blockRect scale b = some r ∧ isScaledBBox scale b.polygon r) ∧
    renderOverlay [ex7] 0 2 = [("b7", ⟨0, 0, 20, 10⟩)] := by
  constructor
  · intro b scale hlen hs
    have hpoly : b.polygon ≠ [] := by
      intro hnil
      rw [hnil] at hlen
      simp at hlen
    have hxne : b.polygon.map Prod.fst ≠ [] := by
      simpa using hpoly
    have hyne : b.polygon.map Prod.snd ≠ [] := by
      simpa using hpoly
    refine ⟨_, blockRect_eq b scale hlen, ?_, ?_, ?_, ?_, ?_⟩
    · intro q hq
      have h1 := listMin_le (b.polygon.map Prod.fst) q.1
        (List.mem_map_of_mem Prod.fst hq)
      have h2 := le_listMax (b.polygon.map Prod.fst) q.1
        (List.mem_map_of_mem Prod.fst hq)
      have h3 := listMin_le (b.polygon.map Prod.snd) q.2
        (List.mem_map_of_mem Prod.snd hq)
      have h4 := le_listMax (b.polygon.map Prod.snd) q.2
        (List.mem_map_of_mem Prod.snd hq)
      refine ⟨mul_le_mul_of_nonneg_right h1 hs, ?_,
        mul_le_mul_of_nonneg_right h3 hs, ?_⟩
      · have he : listMin (b.polygon.map Prod.fst) * scale +
            (listMax (b.polygon.map Prod.fst) -
              listMin (b.polygon.map Prod.fst)) * scale =
            listMax (b.polygon.map Prod.fst) * scale := by ring
        show q.1 * scale ≤ listMin (b.polygon.map Prod.fst) * scale +
          (listMax (b.polygon.map Prod.fst) -
            listMin (b.polygon.map Prod.fst)) * scale
        rw [he]
        exact mul_le_mul_of_nonneg_right h2 hs
      · have he : listMin (b.polygon.map Prod.snd) * scale +
            (listMax (b.polygon.map Prod.snd) -
              listMin (b.polygon.map Prod.snd)) * scale =
            listMax (b.polygon.map Prod.snd) * scale := by ring
        show q.2 * scale ≤ listMin (b.polygon.map Prod.snd) * scale +
          (listMax (b.polygon.map Prod.snd) -
            listMin (b.polygon.map Prod.snd)) * scale
        rw [he]
        exact mul_le_mul_of_nonneg_right h4 hs
    · obtain ⟨q, hq, hq1⟩ := List.mem_map.1 (listMin_mem _ hxne)
      exact ⟨q, hq, by rw [hq1]⟩
    · obtain ⟨q, hq, hq1⟩ := List.mem_map.1 (listMax_mem _ hxne)
      refine ⟨q, hq, ?_⟩
      show q.1 * scale = listMin (b.polygon.map Prod.fst) * scale +
        (listMax (b.polygon.map Prod.fst) -
          listMin (b.polygon.map Prod.fst)) * scale
      rw [hq1]
      ring
    · obtain ⟨q, hq, hq1⟩ := List.mem_map.1 (listMin_mem _ hyne)
      exact ⟨q, hq, by rw [hq1]⟩
    · obtain ⟨q, hq, hq1⟩ := List.mem_map.1 (listMax_mem _ hyne)
      refine ⟨q, hq, ?_⟩
      show q.2 * scale = listMin (b.polygon.map Prod.snd) * scale +
        (listMax (b.polygon.map Prod.snd) -
          listMin (b.polygon.map Prod.snd)) * scale
      rw [hq1]
      ring
  · have hbr : blockRect 2 ex7 = some ⟨0, 0, 20, 10⟩ := by
      rw [blockRect_eq ex7 2 (by norm_num [ex7, Block.polygon])]
      norm_num [ex7, Block.polygon, listMin, listMax]
    have hp : overlayPred 0 ex7 = true := rfl
    unfold renderOverlay
    rw [List.filter_cons_of_pos hp, List.filter_nil]
    simp only [List.filterMap_cons, List.filterMap_nil, hbr]
    rfl

theorem claim_C7_witness :
    4 ≤ ex7.polygon.length ∧ (0 : ℚ) ≤ 2 ∧
    ∃ r, blockRect 2 ex7 = some r ∧ isScaledBBox 2 ex7.polygon r :=
  ⟨by norm_num [ex7, Block.polygon], by norm_num,
    claim_C7_projection.1 ex7 2 (by norm_num [ex7, Block.polygon])
      (by norm_num)⟩

/-- Claim C8: a block whose polygon is absent (empty) or has fewer than 4
points yields no overlay rectangle for any page and any scale, yet it
still participates in page-index assignment: in the scenario of one
auto-numbered page containing the 2-point-polygon block `bDeg`, the block
appears in the flat collection with `pageIndex` 0, and the overlay of
every page at every scale is empty. -/
theorem claim_C8_degenerate :
    (∀ (b : Block) (scale : ℚ), b.polygon.length < 4 →
      blockRect scale b = none) ∧
    (flattenForest (parseForest ex8 0).1).map
      (fun b => (b.id, b.pageIndex)) = [("pg8", some 0), ("deg", some 0)] ∧
    ∀ (t : Int) (s : ℚ),
      renderOverlay (flattenForest (parseForest ex8 0).1) t s = [] := by
  refine ⟨fun b scale hl => blockRect_none b scale hl, rfl, ?_⟩
  intro t s
  have hflat : flattenForest (parseForest ex8 0).1 =
      [Block.mk "pg8" "Page" "Page" "" [] none (some 0)
        [Block.mk "deg" "Text" "Text" "" [(0, 0), (1, 1)] none (some 0) []],
       Block.mk "deg" "Text" "Text" "" [(0, 0), (1, 1)] none (some 0) []] :=
    rfl
  rw [hflat]
  have hpg : overlayPred t (Block.mk "pg8" "Page" "Page" "" [] none (some 0)
      [Block.mk "deg" "Text" "Text" "" [(0, 0), (1, 1)] none
        (some 0) []]) = false := by
    simp [overlayPred, Block.block_type]
  have hdr : blockRect s (Block.mk "deg" "Text" "Text" ""
      [(0, 0), (1, 1)] none (some 0) []) = none :=
    blockRect_none _ s (by simp [Block.polygon])
  unfold renderOverlay
  simp only [List.filter_cons, hpg, Bool.false_eq_true, if_false,
    List.filter_nil]
  by_cases ht : overlayPred t (Block.mk "deg" "Text" "Text" ""
      [(0, 0), (1, 1)] none (some 0) []) = true
  · simp only [ht, if_true, List.filterMap_cons, List.filterMap_nil, hdr]
  · simp only [Bool.not_eq_true] at ht
    simp only [ht, Bool.false_eq_true, if_false, List.filterMap_nil]

theorem claim_C8_witness :
    bDeg.polygon.length < 4 ∧ blockRect 1 bDeg = none :=
  ⟨by norm_num [bDeg, Block.polygon],
    claim_C8_degenerate.1 bDeg 1 (by norm_num [bDeg, Block.polygon])⟩

/-- Claim C9: both the assignment and the projection are total functions
of their inputs, with silent defaults on every documented malformed
input: the overlay never produces more than one rectangle per input
block (skipping is silent, never an error), an empty top-level `children`
yields zero blocks and an unchanged counter, and the pipeline evaluates
on a forest combining a page with no `page_number`, a block with no
polygon, a block with a degenerate polygon, a childless leaf, and a
top-level non-page block — every block receiving a default `pageIndex`. -/
theorem claim_C9_totality :
    (∀ (blocks : List Block) (t : Int) (s : ℚ),
      (renderOverlay blocks t s).length ≤ blocks.length) ∧
    parseForest [] 0 = ([], 0) ∧
    (flattenForest (parseForest exMal 0).1).map Block.pageIndex =
      [some 0, some 0, some 0, some 0] := by
  refine ⟨?_, rfl, rfl⟩
  intro blocks t s
  exact le_trans (List.length_filterMap_le _ _) (List.length_filter_le _ _)

/-- Claim C10: a block that reaches the overlay filter with `pageIndex`
still undefined is treated as belonging to page 0 (`pageIndex ?? 0`): it
is in the candidate set exactly when its `block_type` is not "Page" and
the target page index is 0 — it is neither excluded from every page nor
an error. -/
theorem claim_C10_undefined_default (blocks : List Block) (b : Block)
    (t : Int) (hb : b.pageIndex = none) :
    b ∈ blocks.filter (overlayPred t) ↔
      (b ∈ blocks ∧ b.block_type ≠ "Page" ∧ t = 0) := by
  rw [List.mem_filter]
  unfold overlayPred
  rw [hb]
  simp only [Option.getD_none, Bool.and_eq_true, bne_iff_ne, beq_iff_eq]
  constructor
  · rintro ⟨hm, hne, h0⟩
    exact ⟨hm, hne, h0.symm⟩
  · rintro ⟨hm, hne, h0⟩
    exact ⟨hm, hne, h0.symm⟩

theorem claim_C10_witness :
    bDeg.pageIndex = none ∧
    (bDeg ∈ [bDeg].filter (overlayPred 0) ↔
      (bDeg ∈ [bDeg] ∧ bDeg.block_type ≠ "Page" ∧ (0 : Int) = 0)) :=
  ⟨rfl, claim_C10_undefined_default [bDeg] bDeg 0 rfl⟩
